import Mathlib

/-!
Verification of the clinic-flow simulation engine (`src/utils/math.ts`,
`src/unnamed/part_001`): the station/resource model, the batch-mode
`seize` scheduling, the continuous engine's queue admission, arrival
catch-up loop, history sampling, and the result aggregation.

Embedding conventions:
* JavaScript numbers are modelled as `ℚ` (all arithmetic in the engine is
  exact on the inputs the claims quantify over; no float rounding is at
  issue in any claim).
* Randomness is made explicit: every call of `Math.random()` (or of a
  variate generator built on it) becomes a parameter or a list of draws
  consumed in program order.  `randomNormal`'s Box-Muller deviate
  `sqrt(-2 ln u) * cos(2 pi v)` is transcendental, so the deviate `z`
  itself (which ranges over all of `ℝ`, hence over every rational) is the
  parameter.
* String room ids of the source (`'std_reception'`, ...) become the
  inductive `RoomId`; the source's room `name` labels are rendering data
  and are dropped.
-/

/-- Patient classes, from `types.ts` `enum PatientType`. -/
inductive PatientType where
  | STANDARD
  | AI_WALK_IN
  | AI_DIGITAL
deriving DecidableEq, Repr

/-- The configuration fields consumed by the two engines, from `types.ts`
`interface SimulationConfig` (financial and pool-size fields, which the
engines never read, are omitted).  Capacities are `ℕ`, durations and
rates `ℚ`. -/
structure SimulationConfig where
  durationMinutes : ℚ
  avgArrivalInterval : ℚ
  numStdReceptionists : ℕ
  numStdDoctors : ℕ
  stdReceptionTimeAvg : ℚ
  standardDoctorTimeAvg : ℚ
  digitalAdoptionRate : ℚ
  numKiosks : ℕ
  numNurses : ℕ
  numAiDoctors : ℕ
  aiKioskTimeAvg : ℚ
  aiTriageTimeAvg : ℚ
  aiDoctorTimeAvg : ℚ
deriving DecidableEq, Repr

/-- Box-Muller normal generator, `randomNormal` in `src/utils/math.ts`:
`return Math.max(0, mean + z * stdDev)` where
`z = sqrt(-2 ln u) * cos(2 pi v)` is the standard normal deviate drawn
from two uniforms.  `z` ranges over all reals (take `v = 1/2` and `u`
small for arbitrarily negative values), so it is the explicit
parameter here. -/
def randomNormal (mean stdDev z : ℚ) : ℚ :=
  max 0 (mean + z * stdDev)

/- ----------------------------------------------------------------
Batch engine resource model: `class Resource` in `src/unnamed/part_001`.
---------------------------------------------------------------- -/

/-- A batch-engine resource: `capacity` parallel units, per-unit
`availableAt` timestamps and per-unit cumulative busy time, as in
`class Resource` (`src/unnamed/part_001`).  The source's `name : string`
label and the unused `queue` member are dropped. -/
structure Resource where
  capacity : ℕ
  availableAt : List ℚ
  totalBusyTime : List ℚ
deriving DecidableEq, Repr

/-- The `Resource` constructor: `availableAt = new Array(capacity).fill(0)`,
`totalBusyTime = new Array(capacity).fill(0)`. -/
def Resource.mk0 (capacity : ℕ) : Resource :=
  ⟨capacity, List.replicate capacity 0, List.replicate capacity 0⟩

/-- Source `getEarliestUnitIndex`: `minIdx = 0`, then
`for (i = 1; i < capacity; i++) if (availableAt[i] < availableAt[minIdx]) minIdx = i`.
The loop body indices `1, ..., capacity - 1` are `List.range' 1 (capacity - 1)`. -/
def Resource.getEarliestUnitIndex (r : Resource) : ℕ :=
  (List.range' 1 (r.capacity - 1)).foldl
    (fun minIdx i =>
      if r.availableAt.getD i 0 < r.availableAt.getD minIdx 0 then i else minIdx) 0

/-- What `Resource.seize` returns:
`{ unitIndex, startTime, finishTime, waitTime }`. -/
structure SeizeResult where
  unitIndex : ℕ
  startTime : ℚ
  finishTime : ℚ
  waitTime : ℚ
deriving DecidableEq, Repr

/-- Source `Resource.seize(currentTime, duration)`: pick the earliest-available
unit, `readyAt = max(currentTime, availableAt[unitIdx])`,
`waitTime = readyAt - currentTime`, `finishTime = readyAt + duration`;
then `availableAt[unitIdx] = finishTime` and
`totalBusyTime[unitIdx] += duration`.  Returns the updated resource
(the source mutates in place) together with the result record. -/
def Resource.seize (r : Resource) (currentTime duration : ℚ) :
    Resource × SeizeResult :=
  let unitIdx := r.getEarliestUnitIndex
  let readyAt := max currentTime (r.availableAt.getD unitIdx 0)
  let waitTime := readyAt - currentTime
  let finishTime := readyAt + duration
  (⟨r.capacity,
    r.availableAt.set unitIdx finishTime,
    r.totalBusyTime.set unitIdx (r.totalBusyTime.getD unitIdx 0 + duration)⟩,
   ⟨unitIdx, readyAt, finishTime, waitTime⟩)

/-- A sequence of `seize` calls `(currentTime, duration)` applied in order
to a resource: the resource states the batch engine's event loop can
drive a resource through. -/
def seizeRun (r : Resource) (calls : List (ℚ × ℚ)) : Resource :=
  calls.foldl (fun s c => (s.seize c.1 c.2).1) r

/-- How many units of a batch resource are busy at instant `t`: the units
whose `availableAt` lies strictly in the future. -/
def Resource.busyUnits (r : Resource) (t : ℚ) : ℕ :=
  (r.availableAt.filter (fun a => decide (t < a))).length

/-- The batch engine's resources, built exactly as in the
`ClinicSimulation` constructor (`src/unnamed/part_001`):
`new Resource('Reception', numStdReceptionists)`, etc. -/
structure ClinicSim where
  stdReception : Resource
  stdDoctor : Resource
  aiKiosks : Resource
  aiNurses : Resource
  aiDoctor : Resource
deriving DecidableEq, Repr

/-- The `ClinicSimulation` constructor's resource initialisation.  The
constructor performs no validation of the configuration. -/
def clinicInit (config : SimulationConfig) : ClinicSim :=
  ⟨Resource.mk0 config.numStdReceptionists,
   Resource.mk0 config.numStdDoctors,
   Resource.mk0 config.numKiosks,
   Resource.mk0 config.numNurses,
   Resource.mk0 config.numAiDoctors⟩

/-- One service visit of a batch-engine patient, as performed by
`scheduleService`: the state of the seized resource at the moment the
patient's event is processed (arbitrary here, because other patients'
seizures interleave) and the drawn service duration. -/
def journeyAux : ℚ → ℚ → ℚ → List (Resource × ℚ) → ℚ × ℚ × ℚ
  | time, wait, service, [] => (time, wait, service)
  | time, wait, service, (r, duration) :: rest =>
      let res := (r.seize time duration).2
      journeyAux res.finishTime (wait + res.waitTime) (service + duration) rest

/-- A completed batch-engine patient's record: arriving at `arrival`, the
patient's successive `scheduleService` calls each run at the previous
stage's `finishTime` (the `SERVICE_COMPLETED` event time), accumulating
`waitTime += wait` and `serviceTime += duration`
(`updatePatientMetrics`); the terminal stage sets
`exitTime = event.time`.  Returns `(exitTime, waitTime, serviceTime)`. -/
def journey (arrival : ℚ) (steps : List (Resource × ℚ)) : ℚ × ℚ × ℚ :=
  journeyAux arrival 0 0 steps

/-- The `compileResults` per-clinic doctor utilization:
`(docRes.totalBusyTime[0] / durationMinutes) * 100`, then
`Math.min(_, 100)`. -/
def doctorUtilization (r : Resource) (durationMinutes : ℚ) : ℚ :=
  min ((r.totalBusyTime.getD 0 0 / durationMinutes) * 100) 100

/-- The `compileResults` per-station utilization entry (`resourceStats`
`busyTime`): `(sum of totalBusyTime / (durationMinutes * capacity)) * 100`
— note no cap is applied here in the source. -/
def resourceUtilization (r : Resource) (durationMinutes : ℚ) : ℚ :=
  (r.totalBusyTime.sum / (durationMinutes * (r.capacity : ℚ))) * 100

/- ----------------------------------------------------------------
Continuous engine: rooms, queue admission, spawning, history
(`RealtimeEngine` in `src/utils/math.ts`).
---------------------------------------------------------------- -/

/-- Room kinds, from `Room.type` in `types.ts`. -/
inductive RoomType where
  | QUEUE
  | SERVICE
deriving DecidableEq, Repr

/-- The string room ids of `initializeRooms`, as an enumeration. -/
inductive RoomId where
  | std_checkin_wait
  | std_reception
  | std_main_wait
  | std_doctor
  | ai_kiosk
  | ai_waiting
  | ai_triage
  | ai_post_triage_wait
  | ai_doctor
deriving DecidableEq, Repr

/-- A continuous-engine room, from `interface Room` in `types.ts` (the
rendering `name` label is dropped; `position` is the layout point from
the `POS` table). -/
structure Room where
  id : RoomId
  type : RoomType
  capacity : ℕ
  staffCount : ℕ
  staffBusy : ℤ
  occupants : List ℕ
  queue : List ℕ
  position : ℚ × ℚ
deriving DecidableEq, Repr

/-- Source `RealtimeEngine.initializeRooms(config)`: the nine rooms in source
order, with capacities taken directly from the configuration (queues get
the literal `999`) and positions from the `POS` constant table.  No
validation is performed on the configuration. -/
def initRooms (config : SimulationConfig) : List Room :=
  [⟨.std_checkin_wait, .QUEUE, 999, 0, 0, [], [], (20, 20)⟩,
   ⟨.std_reception, .SERVICE, config.numStdReceptionists,
     config.numStdReceptionists, 0, [], [], (40, 20)⟩,
   ⟨.std_main_wait, .QUEUE, 999, 0, 0, [], [], (60, 20)⟩,
   ⟨.std_doctor, .SERVICE, config.numStdDoctors,
     config.numStdDoctors, 0, [], [], (80, 20)⟩,
   ⟨.ai_kiosk, .SERVICE, config.numKiosks,
     config.numKiosks, 0, [], [], (20, 60)⟩,
   ⟨.ai_waiting, .QUEUE, 999, 0, 0, [], [], (35, 70)⟩,
   ⟨.ai_triage, .SERVICE, config.numNurses,
     config.numNurses, 0, [], [], (50, 70)⟩,
   ⟨.ai_post_triage_wait, .QUEUE, 999, 0, 0, [], [], (68, 70)⟩,
   ⟨.ai_doctor, .SERVICE, config.numAiDoctors,
     config.numAiDoctors, 0, [], [], (85, 70)⟩]

/-- Source `RealtimeEngine.getRoom(id)`: `rooms.find(r => r.id === id)`. -/
def getRoom (rooms : List Room) (id : RoomId) : Option Room :=
  rooms.find? (fun r => r.id == id)

/- The per-station queue-admission protocol of the continuous engine, as
an abstract transition system over one station.  The three operations a
station's `(queue, staffBusy)` pair undergoes in `update` are:
`enqueue` — `addToQueue` pushes an agent id at the back (spawning and
routing); `enter` — a `WAITING` agent is admitted in `updateAgent`, only
when `queue[0] === agent.id && staffBusy < capacity`, which shifts the
queue head and increments `staffBusy`; `release` — a `PROCESSING` agent
finishes, decrementing `staffBusy`.  The state also logs the admitted
ids in admission order (`entered`), which the source realises as the
admitted agent's transition to `PROCESSING`. -/

/-- One station's operations in the continuous engine. -/
inductive QOp where
  | enqueue (id : ℕ)
  | enter
  | release
deriving DecidableEq, Repr

/-- One station's observable queue state plus the admission log. -/
structure QState where
  queue : List ℕ
  busy : ℤ
  entered : List ℕ
deriving DecidableEq, Repr

/-- A fresh station: empty queue, no busy staff. -/
def qInit : QState := ⟨[], 0, []⟩

/-- One operation on a station of capacity `cap`, mirroring
`RealtimeEngine.addToQueue` and the two `updateAgent` branches: `enter`
fires only for the queue head and only when `staffBusy < capacity`. -/
def qstep (cap : ℤ) (s : QState) : QOp → QState
  | .enqueue i => ⟨s.queue ++ [i], s.busy, s.entered⟩
  | .enter =>
      match s.queue with
      | [] => s
      | a :: rest =>
          if s.busy < cap then ⟨rest, s.busy + 1, s.entered ++ [a]⟩ else s
  | .release => ⟨s.queue, s.busy - 1, s.entered⟩

/-- A station after a sequence of operations. -/
def qrun (cap : ℤ) (s : QState) : List QOp → QState
  | [] => s
  | op :: ops => qrun cap (qstep cap s op) ops

/-- The ids enqueued by an operation sequence, in enqueue order. -/
def enqueuedOf : List QOp → List ℕ
  | [] => []
  | .enqueue i :: ops => i :: enqueuedOf ops
  | .enter :: ops => enqueuedOf ops
  | .release :: ops => enqueuedOf ops

/- Arrival catch-up loop, `RealtimeEngine.handleSpawning`. -/

/-- The two patients of one joint arrival, in spawn order: one
`STANDARD`, then one AI patient, `AI_DIGITAL` when the Bernoulli draw
`Math.random() < digitalAdoptionRate` succeeded, else `AI_WALK_IN`. -/
def jointSpawn (isDigital : Bool) : List PatientType :=
  [.STANDARD, if isDigital then .AI_DIGITAL else .AI_WALK_IN]

/-- The outcome of the catch-up loop: the next-arrival timer, the
patients spawned in order, and whether the supplied list of random
draws ran out while the loop condition still held (never happens in the
source, whose random stream is inexhaustible). -/
structure SpawnOut where
  nextArrival : ℚ
  spawned : List PatientType
  exhausted : Bool
deriving DecidableEq, Repr

/-- Source `handleSpawning`:
`while (time >= nextArrival && time < durationMinutes)` spawn a
`STANDARD` patient and an AI patient, then
`nextArrival += randomExponential(1 / avgArrivalInterval)` and, as the
safety break, `if (nextArrival <= time) nextArrival = time + 0.1`.
Each iteration consumes one draw `(gap, isDigital)`: the sampled
exponential gap and the Bernoulli adoption draw. -/
def handleSpawning (time dur : ℚ) (na : ℚ) : List (ℚ × Bool) → SpawnOut
  | [] => if na ≤ time ∧ time < dur then ⟨na, [], true⟩ else ⟨na, [], false⟩
  | (gap, d) :: rest =>
      if na ≤ time ∧ time < dur then
        let na1 := na + gap
        let na2 := if na1 ≤ time then time + 1 / 10 else na1
        let out := handleSpawning time dur na2 rest
        ⟨out.nextArrival, jointSpawn d ++ out.spawned, out.exhausted⟩
      else ⟨na, [], false⟩

/- History sampling, `RealtimeEngine.update` step 4 and
`captureHistory`. -/

/-- The engine's cumulative counters read by `captureHistory`
(`state.stats` in `types.ts`; the fields it does not read are omitted). -/
structure Stats where
  stdReceptionHandled : ℕ
  stdDoctorHandled : ℕ
  aiTriageHandled : ℕ
  aiDoctorHandled : ℕ
deriving DecidableEq, Repr

/-- A history record, `interface HistoryPoint` in `types.ts`. -/
structure HistoryPoint where
  time : ℤ
  stdDoctorTotal : ℕ
  aiDoctorTotal : ℕ
  stdIntakeTotal : ℕ
  aiIntakeTotal : ℕ
deriving DecidableEq, Repr

/-- Source `captureHistory`: appends one snapshot built from
`Math.floor(state.time)` and the four cumulative counters. -/
def captureHistory (time : ℚ) (st : Stats) : HistoryPoint :=
  ⟨⌊time⌋, st.stdDoctorHandled, st.aiDoctorHandled,
   st.stdReceptionHandled, st.aiTriageHandled⟩

/-- The history step of `RealtimeEngine.update(dtMinutes)`: after
`state.time += dtMinutes`, when
`state.time - lastHistoryCapture >= 5` the engine calls
`captureHistory()` once and sets `lastHistoryCapture = state.time`;
otherwise history and marker are untouched.  Returns the new history
and the new marker. -/
def updateCapture (time dt lastCapture : ℚ) (hist : List HistoryPoint)
    (st : Stats) : List HistoryPoint × ℚ :=
  let t := time + dt
  if 5 ≤ t - lastCapture then (hist ++ [captureHistory t st], t)
  else (hist, lastCapture)

/- ----------------------------------------------------------------
Service-time distributions of the two engines.
---------------------------------------------------------------- -/

/-- The five service stages shared by the two engines. -/
inductive Stage where
  | RECEPTION
  | STD_DOCTOR
  | KIOSK
  | TRIAGE
  | AI_DOCTOR
deriving DecidableEq, Repr

/-- A variate-generator call with its parameters: `tri lo mode hi` is
`randomTriangular(lo, mode, hi)`; `norm mean stdDev floor` is
`randomNormal(mean, stdDev)` with an outer `Math.max(floor, _)` clamp
(`floor = 0` when no outer clamp is applied; `randomNormal` itself
already clamps at `0`). -/
inductive DistSpec where
  | tri (lo mode hi : ℚ)
  | norm (mean stdDev floor : ℚ)
deriving DecidableEq, Repr

/-- The generator family of a distribution call. -/
def DistSpec.isTriangular : DistSpec → Bool
  | .tri _ _ _ => true
  | .norm _ _ _ => false

/-- The mode (triangular) or mean (normal) parameter. -/
def DistSpec.mode : DistSpec → ℚ
  | .tri _ m _ => m
  | .norm m _ _ => m

/-- The `safeMin` helper of `getDuration`: `Math.max(0.1, val)`. -/
def safeMin (val : ℚ) : ℚ := max (1 / 10) val

/-- The distribution call `RealtimeEngine.getDuration(roomId)` makes for
each service stage: `randomTriangular(safeMin(avg * 0.5), avg, avg * 1.5)`
for the four triangular stages, and
`Math.max(0.1, randomNormal(aiTriageTimeAvg, aiTriageTimeAvg * 0.2))`
for triage. -/
def getDurationDist (c : SimulationConfig) : Stage → DistSpec
  | .RECEPTION =>
      .tri (safeMin (c.stdReceptionTimeAvg * (1 / 2))) c.stdReceptionTimeAvg
        (c.stdReceptionTimeAvg * (3 / 2))
  | .STD_DOCTOR =>
      .tri (safeMin (c.standardDoctorTimeAvg * (1 / 2))) c.standardDoctorTimeAvg
        (c.standardDoctorTimeAvg * (3 / 2))
  | .KIOSK =>
      .tri (safeMin (c.aiKioskTimeAvg * (1 / 2))) c.aiKioskTimeAvg
        (c.aiKioskTimeAvg * (3 / 2))
  | .TRIAGE => .norm c.aiTriageTimeAvg (c.aiTriageTimeAvg * (1 / 5)) (1 / 10)
  | .AI_DOCTOR =>
      .tri (safeMin (c.aiDoctorTimeAvg * (1 / 2))) c.aiDoctorTimeAvg
        (c.aiDoctorTimeAvg * (3 / 2))

/-- The distribution call the batch engine
(`processStandardEvent` / `processAiEvent`) makes for each stage:
`randomTriangular(3, 5, 8)` for reception,
`randomTriangular(15, standardDoctorTimeAvg, 25)` for the standard
doctor, `randomTriangular(5, 7, 10)` for the kiosk, `randomNormal(5, 1)`
for triage (no outer floor), and
`randomTriangular(8, aiDoctorTimeAvg, 12)` for the AI doctor. -/
def batchDist (c : SimulationConfig) : Stage → DistSpec
  | .RECEPTION => .tri 3 5 8
  | .STD_DOCTOR => .tri 15 c.standardDoctorTimeAvg 25
  | .KIOSK => .tri 5 7 10
  | .TRIAGE => .norm 5 1 0
  | .AI_DOCTOR => .tri 8 c.aiDoctorTimeAvg 12

/-- The room each service stage's duration is drawn for in the
continuous engine. -/
def stageRoomId : Stage → RoomId
  | .RECEPTION => .std_reception
  | .STD_DOCTOR => .std_doctor
  | .KIOSK => .ai_kiosk
  | .TRIAGE => .ai_triage
  | .AI_DOCTOR => .ai_doctor

/-- The continuous engine's capacity for a stage: the `capacity` of the
room `getRoom` finds in the freshly initialised room list. -/
def realtimeCapacity (c : SimulationConfig) (s : Stage) : ℕ :=
  ((getRoom (initRooms c) (stageRoomId s)).map Room.capacity).getD 0

/-- The batch engine's capacity for a stage: the `capacity` of the
corresponding constructor-built resource. -/
def batchCapacity (c : SimulationConfig) : Stage → ℕ
  | .RECEPTION => (clinicInit c).stdReception.capacity
  | .STD_DOCTOR => (clinicInit c).stdDoctor.capacity
  | .KIOSK => (clinicInit c).aiKiosks.capacity
  | .TRIAGE => (clinicInit c).aiNurses.capacity
  | .AI_DOCTOR => (clinicInit c).aiDoctor.capacity

/-- The ordered service stages a patient class visits in the continuous
engine, read off `spawnPatient` (initial queue) and `routeNext`. -/
def realtimeRoute : PatientType → List Stage
  | .STANDARD => [.RECEPTION, .STD_DOCTOR]
  | .AI_WALK_IN => [.KIOSK, .TRIAGE, .AI_DOCTOR]
  | .AI_DIGITAL => [.TRIAGE, .AI_DOCTOR]

/-- The ordered service stages a patient class visits in the batch
engine, read off `processStandardEvent` and `processAiEvent`. -/
def batchRoute : PatientType → List Stage
  | .STANDARD => [.RECEPTION, .STD_DOCTOR]
  | .AI_WALK_IN => [.KIOSK, .TRIAGE, .AI_DOCTOR]
  | .AI_DIGITAL => [.TRIAGE, .AI_DOCTOR]

/-- The accumulator loop of `getEarliestUnitIndex` over an explicit
index list, abstracted over the valuation, for reasoning:
`Resource.getEarliestUnitIndex` is `minIdxFold` on
`availableAt.getD · 0` over `range' 1 (capacity - 1)` starting from
index `0`. -/
def minIdxFold (v : ℕ → ℚ) (acc : ℕ) (l : List ℕ) : ℕ :=
  l.foldl (fun m i => if v i < v m then i else m) acc

/- ----------------------------------------------------------------
Theorems.
---------------------------------------------------------------- -/

theorem getEarliestUnitIndex_eq_minIdxFold (r : Resource) :
    r.getEarliestUnitIndex =
      minIdxFold (fun i => r.availableAt.getD i 0) 0 (List.range' 1 (r.capacity - 1)) := rfl

/-- The fold `minIdxFold` returns the least index attaining the minimum value,
provided the index list is strictly increasing and every listed index
exceeds the accumulator. -/
theorem minIdxFold_spec (v : ℕ → ℚ) :
    ∀ (l : List ℕ) (acc : ℕ), l.Pairwise (· < ·) → (∀ x ∈ l, acc < x) →
      (minIdxFold v acc l = acc ∨ minIdxFold v acc l ∈ l) ∧
      v (minIdxFold v acc l) ≤ v acc ∧
      (∀ j ∈ l, v (minIdxFold v acc l) ≤ v j) ∧
      (∀ j, (j = acc ∨ j ∈ l) → j < minIdxFold v acc l →
        v (minIdxFold v acc l) < v j) := by
  intro l
  induction l with
  | nil =>
      intro acc _ _
      refine ⟨Or.inl rfl, le_refl _, ?_, ?_⟩
      · intro j hj; exact absurd hj (List.not_mem_nil j)
      · intro j hj hlt
        rcases hj with rfl | hj
        · exact absurd hlt (lt_irrefl j)
        · exact absurd hj (List.not_mem_nil j)
  | cons x xs ih =>
      intro acc hsort hacc
      have hx : acc < x := hacc x (List.mem_cons_self x xs)
      have hsort' : xs.Pairwise (· < ·) := (List.pairwise_cons.mp hsort).2
      have hxlt : ∀ y ∈ xs, x < y := (List.pairwise_cons.mp hsort).1
      have hfold : minIdxFold v acc (x :: xs) =
          minIdxFold v (if v x < v acc then x else acc) xs := rfl
      by_cases hvx : v x < v acc
      · have hacc' : ∀ y ∈ xs, x < y := hxlt
        have h := ih x hsort' hacc'
        rw [hfold, if_pos hvx]
        set m := minIdxFold v x xs with hm
        refine ⟨?_, ?_, ?_, ?_⟩
        · rcases h.1 with h1 | h1
          · exact Or.inr (h1 ▸ List.mem_cons_self x xs)
          · exact Or.inr (List.mem_cons_of_mem x h1)
        · exact le_of_lt (lt_of_le_of_lt h.2.1 hvx)
        · intro j hj
          rcases List.mem_cons.mp hj with rfl | hj
          · exact h.2.1
          · exact h.2.2.1 j hj
        · intro j hj hjm
          rcases hj with rfl | hj
          · exact lt_of_le_of_lt h.2.1 hvx
          · rcases List.mem_cons.mp hj with rfl | hj
            · exact h.2.2.2 j (Or.inl rfl) hjm
            · exact h.2.2.2 j (Or.inr hj) hjm
      · have hacc' : ∀ y ∈ xs, acc < y := fun y hy => lt_trans hx (hxlt y hy)
        have h := ih acc hsort' hacc'
        rw [hfold, if_neg hvx]
        set m := minIdxFold v acc xs with hm
        have hvax : v acc ≤ v x := le_of_not_lt hvx
        refine ⟨?_, h.2.1, ?_, ?_⟩
        · rcases h.1 with h1 | h1
          · exact Or.inl h1
          · exact Or.inr (List.mem_cons_of_mem x h1)
        · intro j hj
          rcases List.mem_cons.mp hj with rfl | hj
          · exact le_trans h.2.1 hvax
          · exact h.2.2.1 j hj
        · intro j hj hjm
          rcases hj with rfl | hj
          · exact h.2.2.2 j (Or.inl rfl) hjm
          · rcases List.mem_cons.mp hj with rfl | hj
            · -- j = x, x < m; m cannot be acc (acc < x < m), so m ∈ xs and
              -- the inductive tie-break at acc gives v m < v acc ≤ v x.
              rcases h.1 with h1 | h1
              · exact absurd (h1 ▸ hjm) (not_lt_of_gt hx)
              · exact lt_of_lt_of_le (h.2.2.2 acc (Or.inl rfl) (lt_trans hx hjm)) hvax
            · exact h.2.2.2 j (Or.inr hj) hjm

/-- The index list `1, ..., n` is strictly increasing. -/
theorem range'_one_pairwise : ∀ (n s : ℕ), (List.range' s n).Pairwise (· < ·) := by
  intro n
  induction n with
  | zero => intro s; exact List.Pairwise.nil
  | succ k ih =>
      intro s
      rw [List.range'_succ]
      refine List.pairwise_cons.mpr ⟨?_, ih (s + 1)⟩
      intro y hy
      rcases List.mem_range'.mp hy with ⟨i, _, rfl⟩
      omega

/-- The earliest-unit choice of `getEarliestUnitIndex`: the chosen index
is in range, its `availableAt` is minimal, and every strictly smaller
index has a strictly later `availableAt` (ties go to the lowest index). -/
theorem getEarliestUnitIndex_spec (r : Resource) (hcap : 0 < r.capacity) :
    r.getEarliestUnitIndex < r.capacity ∧
    (∀ i < r.capacity,
      r.availableAt.getD r.getEarliestUnitIndex 0 ≤ r.availableAt.getD i 0) ∧
    (∀ i < r.getEarliestUnitIndex,
      r.availableAt.getD r.getEarliestUnitIndex 0 < r.availableAt.getD i 0) := by
  have hmem : ∀ i, 0 < i → i < r.capacity → i ∈ List.range' 1 (r.capacity - 1) := by
    intro i h0 hc
    exact List.mem_range'.mpr ⟨i - 1, by omega, by omega⟩
  have h := minIdxFold_spec (fun i => r.availableAt.getD i 0)
    (List.range' 1 (r.capacity - 1)) 0 (range'_one_pairwise _ 1)
    (by intro x hx; rcases List.mem_range'.mp hx with ⟨i, _, rfl⟩; omega)
  rw [getEarliestUnitIndex_eq_minIdxFold]
  set m := minIdxFold (fun i => r.availableAt.getD i 0) 0 (List.range' 1 (r.capacity - 1))
  refine ⟨?_, ?_, ?_⟩
  · rcases h.1 with h1 | h1
    · omega
    · rcases List.mem_range'.mp h1 with ⟨i, hi, hieq⟩; omega
  · intro i hi
    rcases Nat.eq_zero_or_pos i with rfl | h0
    · exact h.2.1
    · exact h.2.2.1 i (hmem i h0 hi)
  · intro i him
    have hic : i < r.capacity := by
      rcases h.1 with h1 | h1
      · omega
      · rcases List.mem_range'.mp h1 with ⟨k, hk, hkeq⟩; omega
    rcases Nat.eq_zero_or_pos i with rfl | h0
    · exact h.2.2.2 0 (Or.inl rfl) him
    · exact h.2.2.2 i (Or.inr (hmem i h0 hic)) him

/-- C1: `seize(now, duration)` on a batch-mode station picks the unit
with the smallest `availableAt` (ties to the lowest index), returns
`start = max(now, availableAt[unit])`, `wait = start - now`,
`finish = start + duration`, and afterwards `availableAt[unit] = finish`,
the chosen unit's cumulative busy time grew by exactly `duration`, and
every other unit's entries are unchanged. -/
theorem seize_spec (r : Resource) (now dur : ℚ) (hcap : 0 < r.capacity)
    (hlen : r.availableAt.length = r.capacity)
    (hblen : r.totalBusyTime.length = r.capacity) :
    (r.seize now dur).2.unitIndex < r.capacity ∧
    (∀ i < r.capacity,
      r.availableAt.getD (r.seize now dur).2.unitIndex 0 ≤ r.availableAt.getD i 0) ∧
    (∀ i < (r.seize now dur).2.unitIndex,
      r.availableAt.getD (r.seize now dur).2.unitIndex 0 < r.availableAt.getD i 0) ∧
    (r.seize now dur).2.startTime =
      max now (r.availableAt.getD (r.seize now dur).2.unitIndex 0) ∧
    (r.seize now dur).2.waitTime = (r.seize now dur).2.startTime - now ∧
    (r.seize now dur).2.finishTime = (r.seize now dur).2.startTime + dur ∧
    (r.seize now dur).1.availableAt.getD (r.seize now dur).2.unitIndex 0 =
      (r.seize now dur).2.finishTime ∧
    (r.seize now dur).1.totalBusyTime.getD (r.seize now dur).2.unitIndex 0 =
      r.totalBusyTime.getD (r.seize now dur).2.unitIndex 0 + dur ∧
    (∀ i, i ≠ (r.seize now dur).2.unitIndex →
      (r.seize now dur).1.availableAt.getD i 0 = r.availableAt.getD i 0 ∧
      (r.seize now dur).1.totalBusyTime.getD i 0 = r.totalBusyTime.getD i 0) := by
  have hunit : (r.seize now dur).2.unitIndex = r.getEarliestUnitIndex := rfl
  have hspec := getEarliestUnitIndex_spec r hcap
  have hua : r.getEarliestUnitIndex < r.availableAt.length := by
    rw [hlen]; exact hspec.1
  have hub : r.getEarliestUnitIndex < r.totalBusyTime.length := by
    rw [hblen]; exact hspec.1
  refine ⟨hunit ▸ hspec.1, hunit ▸ hspec.2.1, hunit ▸ hspec.2.2, rfl, rfl, rfl, ?_, ?_, ?_⟩
  · show (r.availableAt.set r.getEarliestUnitIndex _).getD r.getEarliestUnitIndex 0 = _
    rw [List.getD_eq_getElem?_getD, List.getElem?_set_self hua]
    rfl
  · show (r.totalBusyTime.set r.getEarliestUnitIndex _).getD r.getEarliestUnitIndex 0 = _
    rw [List.getD_eq_getElem?_getD, List.getElem?_set_self hub]
    rfl
  · intro i hi
    rw [hunit] at hi
    constructor
    · show (r.availableAt.set r.getEarliestUnitIndex _).getD i 0 = _
      rw [List.getD_eq_getElem?_getD, List.getElem?_set_ne (fun h => hi h.symm),
        ← List.getD_eq_getElem?_getD]
    · show (r.totalBusyTime.set r.getEarliestUnitIndex _).getD i 0 = _
      rw [List.getD_eq_getElem?_getD, List.getElem?_set_ne (fun h => hi h.symm),
        ← List.getD_eq_getElem?_getD]

/-- Witness for C1 at a concrete resource: capacity 2,
`availableAt = [3, 1]`, seized at `now = 2` with `duration = 4`: the
chosen unit is in range and `finish = start + 4`. -/
theorem seize_spec_witness :
    (Resource.seize ⟨2, [3, 1], [0, 0]⟩ 2 4).2.unitIndex < 2 ∧
    (Resource.seize ⟨2, [3, 1], [0, 0]⟩ 2 4).2.finishTime =
      (Resource.seize ⟨2, [3, 1], [0, 0]⟩ 2 4).2.startTime + 4 := by
  have h := seize_spec ⟨2, [3, 1], [0, 0]⟩ 2 4 (by decide) (by decide) (by decide)
  exact ⟨h.1, h.2.2.2.2.2.1⟩

/-- The order-preservation invariant of a station: the admission log
followed by the pending queue always lists the enqueued ids in enqueue
order (`enter` only moves the queue head to the end of the log). -/
theorem qrun_entered_append_queue (cap : ℤ) :
    ∀ (ops : List QOp) (s : QState),
      (qrun cap s ops).entered ++ (qrun cap s ops).queue =
        s.entered ++ (s.queue ++ enqueuedOf ops) := by
  intro ops
  induction ops with
  | nil => intro s; simp [qrun, enqueuedOf]
  | cons op ops ih =>
      intro s
      obtain ⟨q, b, e⟩ := s
      cases op with
      | enqueue i =>
          simp only [qrun]
          rw [ih]
          simp [qstep, enqueuedOf]
      | enter =>
          simp only [qrun]
          rw [ih]
          cases q with
          | nil => simp [qstep, enqueuedOf]
          | cons a rest =>
              by_cases hb : b < cap
              · simp [qstep, hb, enqueuedOf]
              · simp [qstep, hb, enqueuedOf]
      | release =>
          simp only [qrun]
          rw [ih]
          simp [qstep, enqueuedOf]

/-- C2: continuous-engine queue admission is strict FIFO.  For any
operation sequence on a station (with distinct enqueued ids, as the
engine's monotone patient counter guarantees): if id `A` is enqueued
strictly before id `B` and `B` has been admitted, then `A` was admitted
earlier (it sits strictly before `B` in the admission log).  Moreover an
`enter` step admits an agent only when it is the head (index 0) of the
queue and `staffBusy < capacity`. -/
theorem fifo_admission (cap : ℤ) (ops : List QOp) (i j : ℕ)
    (hij : i < j) (hj : j < (enqueuedOf ops).length)
    (hnd : (enqueuedOf ops).Nodup)
    (hmem : (enqueuedOf ops).get ⟨j, hj⟩ ∈ (qrun cap qInit ops).entered) :
    ((enqueuedOf ops).get ⟨i, Nat.lt_trans hij hj⟩ ∈ (qrun cap qInit ops).entered ∧
      (qrun cap qInit ops).entered.indexOf
          ((enqueuedOf ops).get ⟨i, Nat.lt_trans hij hj⟩) <
        (qrun cap qInit ops).entered.indexOf ((enqueuedOf ops).get ⟨j, hj⟩)) ∧
    (∀ (s : QState) (a : ℕ),
      (qstep cap s QOp.enter).entered = s.entered ++ [a] →
      s.queue.head? = some a ∧ s.busy < cap) := by
  obtain ⟨E, hE⟩ : ∃ E, (qrun cap qInit ops).entered = E := ⟨_, rfl⟩
  obtain ⟨Q, hQ⟩ : ∃ Q, (qrun cap qInit ops).queue = Q := ⟨_, rfl⟩
  obtain ⟨B, hBdef⟩ : ∃ B, (enqueuedOf ops).get ⟨j, hj⟩ = B := ⟨_, rfl⟩
  obtain ⟨A, hAdef⟩ : ∃ A, (enqueuedOf ops).get ⟨i, Nat.lt_trans hij hj⟩ = A := ⟨_, rfl⟩
  rw [hE, hBdef] at hmem
  rw [hE, hBdef, hAdef]
  have hsplit : E ++ Q = enqueuedOf ops := by
    rw [← hE, ← hQ]
    have h := qrun_entered_append_queue cap ops qInit
    simpa [qInit] using h
  have hEtake : (enqueuedOf ops).take E.length = E := by
    rw [← hsplit]; exact List.take_left E Q
  have hBidx : (enqueuedOf ops).indexOf B = j := by
    rw [← hBdef]
    simpa [List.get_eq_getElem] using List.indexOf_getElem hnd j hj
  have hBE : (enqueuedOf ops).indexOf B = E.indexOf B := by
    rw [← hsplit]; exact List.indexOf_append_of_mem hmem
  have hjE : j < E.length := by
    rw [← hBidx, hBE]
    exact List.indexOf_lt_length.mpr hmem
  have hiE : i < E.length := Nat.lt_trans hij hjE
  have hilen : i < ((enqueuedOf ops).take E.length).length := by
    rw [hEtake]; exact hiE
  have hA2 : ((enqueuedOf ops).take E.length).get ⟨i, hilen⟩ = A := by
    rw [← hAdef]
    simp [List.get_eq_getElem, List.getElem_take]
  have hAmem : A ∈ E := by
    rw [← hEtake]
    exact hA2 ▸ List.get_mem _ i hilen
  have hAidx : (enqueuedOf ops).indexOf A = i := by
    rw [← hAdef]
    simpa [List.get_eq_getElem] using List.indexOf_getElem hnd i (Nat.lt_trans hij hj)
  have hAE : (enqueuedOf ops).indexOf A = E.indexOf A := by
    rw [← hsplit]; exact List.indexOf_append_of_mem hAmem
  refine ⟨⟨hAmem, ?_⟩, ?_⟩
  · rw [← hAE, ← hBE, hAidx, hBidx]; exact hij
  · intro s a heq
    obtain ⟨q, b, e⟩ := s
    cases q with
    | nil =>
        exfalso
        have : e = e ++ [a] := heq
        simpa using congrArg List.length this
    | cons h t =>
        by_cases hb : b < cap
        · have : e ++ [h] = e ++ [a] := by simp only [qstep, hb, if_true, if_pos hb] at heq; exact heq
          have hha : h = a := by simpa using List.append_cancel_left this
          exact ⟨by simp [hha], hb⟩
        · exfalso
          have : e = e ++ [a] := by simp only [qstep, hb, if_neg hb] at heq; exact heq
          simpa using congrArg List.length this

/-- Witness for C2: ids 1 then 2 enqueued, two admissions at capacity 2:
id 1 is admitted and sits before id 2 in the admission log. -/
theorem fifo_admission_witness :
    (1 : ℕ) ∈ (qrun 2 qInit
        [QOp.enqueue 1, QOp.enqueue 2, QOp.enter, QOp.enter]).entered ∧
      (qrun 2 qInit [QOp.enqueue 1, QOp.enqueue 2, QOp.enter, QOp.enter]).entered.indexOf 1 <
        (qrun 2 qInit [QOp.enqueue 1, QOp.enqueue 2, QOp.enter, QOp.enter]).entered.indexOf 2 := by
  have h := fifo_admission 2 [QOp.enqueue 1, QOp.enqueue 2, QOp.enter, QOp.enter]
    0 1 (by decide) (by decide) (by decide) (by decide)
  exact h.1

/-- One station operation keeps `busy ≤ cap`: `enter` is guarded by
`busy < cap` and the other operations never increase `busy`. -/
theorem qstep_busy_le (cap : ℤ) (s : QState) (op : QOp) (h : s.busy ≤ cap) :
    (qstep cap s op).busy ≤ cap := by
  obtain ⟨q, b, e⟩ := s
  cases op with
  | enqueue i => exact h
  | enter =>
      cases q with
      | nil => exact h
      | cons a rest =>
          by_cases hb : b < cap
          · simp only [qstep, if_pos hb]
            omega
          · simp only [qstep, if_neg hb]
            exact h
  | release =>
      have : b - 1 ≤ b := by omega
      exact le_trans this h

/-- Invariant `busy ≤ cap` is preserved along any operation sequence. -/
theorem qrun_busy_le (cap : ℤ) :
    ∀ (ops : List QOp) (s : QState), s.busy ≤ cap → (qrun cap s ops).busy ≤ cap := by
  intro ops
  induction ops with
  | nil => intro s h; exact h
  | cons op ops ih =>
      intro s h
      exact ih (qstep cap s op) (qstep_busy_le cap s op h)

/-- One `seize` preserves the length of the `availableAt` array. -/
theorem seize_availableAt_length (r : Resource) (now dur : ℚ) :
    (r.seize now dur).1.availableAt.length = r.availableAt.length := by
  simp [Resource.seize]

/-- A run of `seize` calls preserves the length of `availableAt`. -/
theorem seizeRun_availableAt_length :
    ∀ (calls : List (ℚ × ℚ)) (r : Resource),
      (seizeRun r calls).availableAt.length = r.availableAt.length := by
  intro calls
  induction calls with
  | nil => intro r; rfl
  | cons c rest ih =>
      intro r
      have h1 : seizeRun r (c :: rest) = seizeRun (r.seize c.1 c.2).1 rest := rfl
      rw [h1, ih, seize_availableAt_length]

/-- C3: station invariants hold in every reachable state.  Continuous
engine: from a fresh station, any sequence of enqueue/admission/release
operations keeps the busy-staff count at most the capacity, and the
queue length is non-negative.  Batch engine: from a fresh resource, any
sequence of `seize` calls keeps the number of simultaneously busy units
at most the capacity, at every instant `t`. -/
theorem station_invariants :
    (∀ (cap : ℤ) (ops : List QOp), 0 ≤ cap →
      (qrun cap qInit ops).busy ≤ cap ∧ 0 ≤ (qrun cap qInit ops).queue.length) ∧
    (∀ (cap : ℕ) (calls : List (ℚ × ℚ)) (t : ℚ),
      (seizeRun (Resource.mk0 cap) calls).busyUnits t ≤ cap) := by
  constructor
  · intro cap ops h0
    exact ⟨qrun_busy_le cap ops qInit h0, Nat.zero_le _⟩
  · intro cap calls t
    have hlen : (seizeRun (Resource.mk0 cap) calls).availableAt.length = cap := by
      rw [seizeRun_availableAt_length]
      simp [Resource.mk0]
    calc (seizeRun (Resource.mk0 cap) calls).busyUnits t
        ≤ (seizeRun (Resource.mk0 cap) calls).availableAt.length :=
          List.length_filter_le _ _
      _ = cap := hlen

/-- Witness for C3 at a concrete station and resource: capacity 1, one
enqueue, two admission attempts and a release; and two seizes on a
one-unit resource observed at `t = 50`. -/
theorem station_invariants_witness :
    ((qrun 1 qInit [QOp.enqueue 7, QOp.enter, QOp.enter, QOp.release]).busy ≤ 1 ∧
      0 ≤ (qrun 1 qInit [QOp.enqueue 7, QOp.enter, QOp.enter, QOp.release]).queue.length) ∧
    (seizeRun (Resource.mk0 1) [(0, 100), (0, 100)]).busyUnits 50 ≤ 1 := by
  exact ⟨station_invariants.1 1 [QOp.enqueue 7, QOp.enter, QOp.enter, QOp.release] (by decide),
    station_invariants.2 1 [(0, 100), (0, 100)] 50⟩

/-- When the loop condition fails on entry, `handleSpawning` does
nothing: the timer is untouched and nothing is spawned. -/
theorem handleSpawning_not_cond (time dur na : ℚ) (draws : List (ℚ × Bool))
    (h : ¬(na ≤ time ∧ time < dur)) :
    handleSpawning time dur na draws = ⟨na, [], false⟩ := by
  cases draws with
  | nil => simp [handleSpawning, h]
  | cons d rest => simp [handleSpawning, h]

/-- The next-arrival timer either is untouched (no iteration ran) or
ends strictly beyond the current time: each iteration sets it past
`time`, by the sampled gap or by the forced `time + 0.1` step. -/
theorem handleSpawning_next_gt (time dur : ℚ) :
    ∀ (draws : List (ℚ × Bool)) (na : ℚ),
      (handleSpawning time dur na draws).nextArrival = na ∨
        time < (handleSpawning time dur na draws).nextArrival := by
  intro draws
  induction draws with
  | nil =>
      intro na
      by_cases h : na ≤ time ∧ time < dur
      · left; simp [handleSpawning, h]
      · left; simp [handleSpawning, h]
  | cons d rest ih =>
      intro na
      by_cases h : na ≤ time ∧ time < dur
      · right
        obtain ⟨gap, b⟩ := d
        have hs : handleSpawning time dur na ((gap, b) :: rest) =
            ⟨(handleSpawning time dur
                (if na + gap ≤ time then time + 1 / 10 else na + gap) rest).nextArrival,
              jointSpawn b ++ (handleSpawning time dur
                (if na + gap ≤ time then time + 1 / 10 else na + gap) rest).spawned,
              (handleSpawning time dur
                (if na + gap ≤ time then time + 1 / 10 else na + gap) rest).exhausted⟩ := by
          simp [handleSpawning, h]
        rw [hs]
        have hna2 : time < (if na + gap ≤ time then time + 1 / 10 else na + gap) := by
          by_cases hg : na + gap ≤ time
          · rw [if_pos hg]; linarith
          · rw [if_neg hg]; linarith [lt_of_not_le hg]
        rcases ih (if na + gap ≤ time then time + 1 / 10 else na + gap) with h1 | h1
        · rw [h1] at *; exact hna2
        · exact h1
      · left; simp [handleSpawning, h]

/-- The spawned list is the joined joint arrivals of a prefix of the
draw list: each loop iteration spawns exactly one `STANDARD` patient
followed by one AI patient whose kind follows the Bernoulli draw. -/
theorem handleSpawning_shape (time dur : ℚ) :
    ∀ (draws : List (ℚ × Bool)) (na : ℚ),
      ∃ n, n ≤ draws.length ∧
        (handleSpawning time dur na draws).spawned =
          ((draws.take n).map (fun d => jointSpawn d.2)).flatten := by
  intro draws
  induction draws with
  | nil =>
      intro na
      refine ⟨0, Nat.le_refl 0, ?_⟩
      by_cases h : na ≤ time ∧ time < dur
      · simp [handleSpawning, h]
      · simp [handleSpawning, h]
  | cons d rest ih =>
      intro na
      by_cases h : na ≤ time ∧ time < dur
      · obtain ⟨gap, b⟩ := d
        obtain ⟨n, hn, hsp⟩ := ih (if na + gap ≤ time then time + 1 / 10 else na + gap)
        refine ⟨n + 1, by simpa using Nat.succ_le_succ hn, ?_⟩
        have hs : (handleSpawning time dur na ((gap, b) :: rest)).spawned =
            jointSpawn b ++ (handleSpawning time dur
              (if na + gap ≤ time then time + 1 / 10 else na + gap) rest).spawned := by
          simp [handleSpawning, h]
        rw [hs, hsp]
        simp
      · exact ⟨0, Nat.zero_le _, by simp [handleSpawning, h]⟩

/-- When the draw list did not run out, the loop exits only because its
condition failed: every arrival instant within the horizon got its
joint spawn. -/
theorem handleSpawning_complete (time dur : ℚ) :
    ∀ (draws : List (ℚ × Bool)) (na : ℚ),
      (handleSpawning time dur na draws).exhausted = false →
        ¬((handleSpawning time dur na draws).nextArrival ≤ time ∧ time < dur) := by
  intro draws
  induction draws with
  | nil =>
      intro na hex
      by_cases h : na ≤ time ∧ time < dur
      · simp [handleSpawning, h] at hex
      · simp only [handleSpawning, if_neg h]
        exact h
  | cons d rest ih =>
      intro na hex
      by_cases h : na ≤ time ∧ time < dur
      · obtain ⟨gap, b⟩ := d
        have hs : handleSpawning time dur na ((gap, b) :: rest) =
            ⟨(handleSpawning time dur
                (if na + gap ≤ time then time + 1 / 10 else na + gap) rest).nextArrival,
              jointSpawn b ++ (handleSpawning time dur
                (if na + gap ≤ time then time + 1 / 10 else na + gap) rest).spawned,
              (handleSpawning time dur
                (if na + gap ≤ time then time + 1 / 10 else na + gap) rest).exhausted⟩ := by
          simp [handleSpawning, h]
        rw [hs] at hex ⊢
        exact ih _ hex
      · simp only [handleSpawning_not_cond time dur na (d :: rest) h]
        exact h

/-- If anything was spawned, the loop ran, so the timer ends strictly
past the current time. -/
theorem handleSpawning_spawn_lt (time dur : ℚ) :
    ∀ (draws : List (ℚ × Bool)) (na : ℚ),
      (handleSpawning time dur na draws).spawned ≠ [] →
        time < (handleSpawning time dur na draws).nextArrival := by
  intro draws
  induction draws with
  | nil =>
      intro na hsp
      exfalso
      by_cases h : na ≤ time ∧ time < dur
      · simp [handleSpawning, h] at hsp
      · simp [handleSpawning, h] at hsp
  | cons d rest _ =>
      intro na hsp
      by_cases h : na ≤ time ∧ time < dur
      · obtain ⟨gap, b⟩ := d
        have hs : handleSpawning time dur na ((gap, b) :: rest) =
            ⟨(handleSpawning time dur
                (if na + gap ≤ time then time + 1 / 10 else na + gap) rest).nextArrival,
              jointSpawn b ++ (handleSpawning time dur
                (if na + gap ≤ time then time + 1 / 10 else na + gap) rest).spawned,
              (handleSpawning time dur
                (if na + gap ≤ time then time + 1 / 10 else na + gap) rest).exhausted⟩ := by
          simp [handleSpawning, h]
        rw [hs]
        have hna2 : time < (if na + gap ≤ time then time + 1 / 10 else na + gap) := by
          by_cases hg : na + gap ≤ time
          · rw [if_pos hg]; linarith
          · rw [if_neg hg]; linarith [lt_of_not_le hg]
        rcases handleSpawning_next_gt time dur rest
            (if na + gap ≤ time then time + 1 / 10 else na + gap) with h1 | h1
        · rw [h1]; exact hna2
        · exact h1
      · exfalso
        rw [handleSpawning_not_cond time dur na (d :: rest) h] at hsp
        exact hsp rfl

/-- C4: the arrival catch-up loop of `update(dt)`.  (i) When the new
time has not reached the next-arrival instant (or the horizon is past),
nothing is spawned — in particular an `update` with `dt = 0` right
after a completed catch-up spawns nothing.  (ii) The spawned list is
exactly one joint arrival (`STANDARD` then `AI_DIGITAL`/`AI_WALK_IN`
by the adoption draw) per loop iteration, one iteration per consumed
draw: a `dt` spanning `N` arrival instants yields `N` joint arrivals.
(iii) With draws remaining, the loop exits only with the condition
false: no arrival instant within the horizon is missed.  (iv) If
anything was spawned the timer ends strictly past the current time —
the forced minimum forward step prevents a stuck timer.  (v) Hence a
second catch-up at the same time spawns nothing more. -/
theorem catchup_spawning (time dur na : ℚ) (draws : List (ℚ × Bool)) :
    (¬(na ≤ time ∧ time < dur) →
      handleSpawning time dur na draws = ⟨na, [], false⟩) ∧
    (∃ n, n ≤ draws.length ∧
      (handleSpawning time dur na draws).spawned =
        ((draws.take n).map (fun d => jointSpawn d.2)).flatten) ∧
    ((handleSpawning time dur na draws).exhausted = false →
      ¬((handleSpawning time dur na draws).nextArrival ≤ time ∧ time < dur)) ∧
    ((handleSpawning time dur na draws).spawned ≠ [] →
      time < (handleSpawning time dur na draws).nextArrival) ∧
    ((handleSpawning time dur na draws).exhausted = false →
      ∀ draws2, (handleSpawning time dur
        (handleSpawning time dur na draws).nextArrival draws2).spawned = []) := by
  refine ⟨handleSpawning_not_cond time dur na draws, handleSpawning_shape time dur draws na,
    handleSpawning_complete time dur draws na, handleSpawning_spawn_lt time dur draws na, ?_⟩
  intro hex draws2
  have hnc := handleSpawning_complete time dur draws na hex
  rw [handleSpawning_not_cond time dur _ draws2 hnc]

/-- Arithmetic of `seize`: the returned finish time is
`currentTime + waitTime + duration`, and the wait is non-negative. -/
theorem seize_finish_wait (r : Resource) (now dur : ℚ) :
    (r.seize now dur).2.finishTime = now + (r.seize now dur).2.waitTime + dur ∧
      0 ≤ (r.seize now dur).2.waitTime := by
  constructor
  · show max now (r.availableAt.getD r.getEarliestUnitIndex 0) + dur =
      now + (max now (r.availableAt.getD r.getEarliestUnitIndex 0) - now) + dur
    ring
  · show 0 ≤ max now (r.availableAt.getD r.getEarliestUnitIndex 0) - now
    have := le_max_left now (r.availableAt.getD r.getEarliestUnitIndex 0)
    linarith

/-- The accumulator invariant of a batch patient's journey: the exit
time plus the incoming accumulators equals the starting time plus the
final wait and service accumulators. -/
theorem journeyAux_invariant :
    ∀ (steps : List (Resource × ℚ)) (time wait service : ℚ),
      (journeyAux time wait service steps).1 + wait + service =
        time + (journeyAux time wait service steps).2.1 +
          (journeyAux time wait service steps).2.2 := by
  intro steps
  induction steps with
  | nil => intro time wait service; simp only [journeyAux]
  | cons st rest ih =>
      intro time wait service
      obtain ⟨r, duration⟩ := st
      have hs : journeyAux time wait service ((r, duration) :: rest) =
          journeyAux (r.seize time duration).2.finishTime
            (wait + (r.seize time duration).2.waitTime) (service + duration) rest := rfl
      rw [hs]
      have h2 := ih (r.seize time duration).2.finishTime
        (wait + (r.seize time duration).2.waitTime) (service + duration)
      have hf := (seize_finish_wait r time duration).1
      linarith

/-- The wait accumulator never decreases along a journey. -/
theorem journeyAux_wait_mono :
    ∀ (steps : List (Resource × ℚ)) (time wait service : ℚ),
      wait ≤ (journeyAux time wait service steps).2.1 := by
  intro steps
  induction steps with
  | nil => intro time wait service; exact le_refl _
  | cons st rest ih =>
      intro time wait service
      obtain ⟨r, duration⟩ := st
      have hw := (seize_finish_wait r time duration).2
      calc wait ≤ wait + (r.seize time duration).2.waitTime := by linarith
        _ ≤ _ := ih _ _ _

/-- The service accumulator never decreases along a journey whose drawn
durations are non-negative. -/
theorem journeyAux_service_mono :
    ∀ (steps : List (Resource × ℚ)), (∀ st ∈ steps, 0 ≤ st.2) →
      ∀ (time wait service : ℚ),
        service ≤ (journeyAux time wait service steps).2.2 := by
  intro steps
  induction steps with
  | nil => intro _ time wait service; exact le_refl _
  | cons st rest ih =>
      intro hnn time wait service
      obtain ⟨r, duration⟩ := st
      have hd : (0 : ℚ) ≤ duration := hnn (r, duration) (List.mem_cons_self _ _)
      calc service ≤ service + duration := by linarith
        _ ≤ _ := ih (fun x hx => hnn x (List.mem_cons_of_mem _ hx)) _ _ _

/-- C5: a completed batch patient's record satisfies
`exitTime - arrivalTime = waitTime + serviceTime` exactly, and — the
drawn service durations being non-negative, as every distribution the
batch engine samples is — `exitTime ≥ arrivalTime`. -/
theorem batch_patient_metrics (arrival : ℚ) (steps : List (Resource × ℚ)) :
    (journey arrival steps).1 =
      arrival + (journey arrival steps).2.1 + (journey arrival steps).2.2 ∧
    0 ≤ (journey arrival steps).2.1 ∧
    ((∀ st ∈ steps, 0 ≤ st.2) →
      0 ≤ (journey arrival steps).2.2 ∧ arrival ≤ (journey arrival steps).1) := by
  have hinv := journeyAux_invariant steps arrival 0 0
  have hw := journeyAux_wait_mono steps arrival 0 0
  simp only [journey]
  refine ⟨by linarith, hw, ?_⟩
  intro hnn
  have hs := journeyAux_service_mono steps hnn arrival 0 0
  exact ⟨hs, by linarith⟩

/-- C6 counterexample: with `stdReceptionTimeAvg = 10`, the continuous
engine draws reception times from `triangular(5, 10, 15)` while the
batch engine draws from the hardcoded `triangular(3, 5, 8)` — the two
engines do not use identical distributions derived from the configured
means. -/
theorem engines_distributions_differ :
    getDurationDist ⟨480, 5, 1, 1, 10, 15, 1 / 2, 1, 1, 1, 7, 5, 10⟩ Stage.RECEPTION ≠
      batchDist ⟨480, 5, 1, 1, 10, 15, 1 / 2, 1, 1, 1, 7, 5, 10⟩ Stage.RECEPTION := by
  simp only [getDurationDist, batchDist, safeMin]
  intro h
  injection h with h1 h2 h3
  norm_num at h2

/-- C6 (amended): the engines share the routing (identical per-class
stage sequences), the capacity source (the same configuration fields),
and the generator family per stage (triangular versus normal), and the
two doctor stages use the configured mean as the triangular mode in
both engines; but the remaining distribution parameters differ (the
batch engine hardcodes them — see the counterexample). -/
theorem engines_shared_structure (c : SimulationConfig) :
    (∀ pt, realtimeRoute pt = batchRoute pt) ∧
    (∀ s, realtimeCapacity c s = batchCapacity c s) ∧
    (∀ s, (getDurationDist c s).isTriangular = (batchDist c s).isTriangular) ∧
    (getDurationDist c Stage.STD_DOCTOR).mode = c.standardDoctorTimeAvg ∧
    (batchDist c Stage.STD_DOCTOR).mode = c.standardDoctorTimeAvg ∧
    (getDurationDist c Stage.AI_DOCTOR).mode = c.aiDoctorTimeAvg ∧
    (batchDist c Stage.AI_DOCTOR).mode = c.aiDoctorTimeAvg := by
  refine ⟨fun pt => ?_, fun s => ?_, fun s => ?_, rfl, rfl, rfl, rfl⟩
  · cases pt <;> rfl
  · cases s <;> rfl
  · cases s <;> rfl

/-- The non-negativity of every busy-time entry is preserved by a run
of `seize` calls with non-negative durations. -/
theorem seizeRun_busy_nonneg :
    ∀ (calls : List (ℚ × ℚ)) (r : Resource),
      (∀ x ∈ r.totalBusyTime, 0 ≤ x) → (∀ c ∈ calls, 0 ≤ c.2) →
      ∀ x ∈ (seizeRun r calls).totalBusyTime, 0 ≤ x := by
  intro calls
  induction calls with
  | nil => intro r hr _ x hx; exact hr x hx
  | cons c rest ih =>
      intro r hr hc x hx
      have hd : (0 : ℚ) ≤ c.2 := hc c (List.mem_cons_self _ _)
      have hgd : 0 ≤ r.totalBusyTime.getD r.getEarliestUnitIndex 0 := by
        by_cases hlt : r.getEarliestUnitIndex < r.totalBusyTime.length
        · rw [List.getD_eq_getElem?_getD, List.getElem?_eq_getElem hlt]
          exact hr _ (List.getElem_mem hlt)
        · rw [List.getD_eq_getElem?_getD, List.getElem?_eq_none (le_of_not_lt hlt)]
          exact le_refl 0
      have hstep : ∀ y ∈ (r.seize c.1 c.2).1.totalBusyTime, 0 ≤ y := by
        intro y hy
        rcases List.mem_or_eq_of_mem_set hy with hy | rfl
        · exact hr y hy
        · linarith
      exact ih (r.seize c.1 c.2).1 hstep (fun d hd2 => hc d (List.mem_cons_of_mem _ hd2)) x hx

/-- C7 counterexample: the per-station utilization entry of
`compileResults` is not capped at 100.  A one-unit resource seized
twice for 100 minutes against a 60-minute horizon reports a
station utilization of 1000/3 percent. -/
theorem resourceUtilization_uncapped :
    100 < resourceUtilization (seizeRun (Resource.mk0 1) [(0, 100), (0, 100)]) 60 := by
  have e1 : resourceUtilization (seizeRun (Resource.mk0 1) [(0, 100), (0, 100)]) 60 =
      (0 + 100 + 100 + 0) / (60 * ((1 : ℕ) : ℚ)) * 100 := rfl
  rw [e1]
  norm_num

/-- C7 (amended): over any run of `seize` calls with non-negative
durations from a fresh resource and a positive horizon, the per-clinic
`doctorUtilization` lies in `[0, 100]` (it is capped by `Math.min`),
and the per-station utilization entry is non-negative — but it has no
upper cap (see the counterexample). -/
theorem utilization_bounds (cap : ℕ) (calls : List (ℚ × ℚ)) (dur : ℚ)
    (hdur : 0 < dur) (hnn : ∀ c ∈ calls, 0 ≤ c.2) :
    0 ≤ doctorUtilization (seizeRun (Resource.mk0 cap) calls) dur ∧
    doctorUtilization (seizeRun (Resource.mk0 cap) calls) dur ≤ 100 ∧
    0 ≤ resourceUtilization (seizeRun (Resource.mk0 cap) calls) dur := by
  have hbusy : ∀ x ∈ (seizeRun (Resource.mk0 cap) calls).totalBusyTime, 0 ≤ x := by
    refine seizeRun_busy_nonneg calls (Resource.mk0 cap) ?_ hnn
    intro x hx
    rcases List.eq_of_mem_replicate hx with rfl
    exact le_refl 0
  have hgd : 0 ≤ (seizeRun (Resource.mk0 cap) calls).totalBusyTime.getD 0 0 := by
    by_cases hlt : 0 < (seizeRun (Resource.mk0 cap) calls).totalBusyTime.length
    · rw [List.getD_eq_getElem?_getD, List.getElem?_eq_getElem hlt]
      exact hbusy _ (List.getElem_mem hlt)
    · rw [List.getD_eq_getElem?_getD, List.getElem?_eq_none (le_of_not_lt hlt)]
      exact le_refl 0
  refine ⟨?_, min_le_right _ _, ?_⟩
  · refine le_min ?_ (by norm_num)
    have h1 : 0 ≤ (seizeRun (Resource.mk0 cap) calls).totalBusyTime.getD 0 0 / dur :=
      div_nonneg hgd (le_of_lt hdur)
    linarith
  · have hsum : 0 ≤ (seizeRun (Resource.mk0 cap) calls).totalBusyTime.sum :=
      List.sum_nonneg hbusy
    have hden : (0 : ℚ) ≤ dur * ((seizeRun (Resource.mk0 cap) calls).capacity : ℚ) := by
      positivity
    have h1 : 0 ≤ (seizeRun (Resource.mk0 cap) calls).totalBusyTime.sum /
        (dur * ((seizeRun (Resource.mk0 cap) calls).capacity : ℚ)) :=
      div_nonneg hsum hden
    have h2 := mul_nonneg h1 (by norm_num : (0 : ℚ) ≤ 100)
    exact h2

/-- Witness for C7 (amended) at a one-unit resource seized once for 10
minutes against a 60-minute horizon. -/
theorem utilization_bounds_witness :
    0 ≤ doctorUtilization (seizeRun (Resource.mk0 1) [(0, 10)]) 60 ∧
    doctorUtilization (seizeRun (Resource.mk0 1) [(0, 10)]) 60 ≤ 100 ∧
    0 ≤ resourceUtilization (seizeRun (Resource.mk0 1) [(0, 10)]) 60 :=
  utilization_bounds 1 [(0, 10)] 60 (by norm_num) (by
    intro c hc
    rcases List.mem_singleton.mp hc with rfl
    norm_num)

/-- C8 counterexample: `randomNormal` clamps at zero, not at a positive
floor — with `mean = 5`, `stdDev = 1` and Box-Muller deviate `z = -6`
(attainable: `z = -sqrt(-2 ln u)` at `v = 1/2`), the result is exactly
zero. -/
theorem randomNormal_attains_zero : randomNormal 5 1 (-6) = 0 := by
  unfold randomNormal
  rw [max_eq_left (by norm_num : (5 : ℚ) + (-6) * 1 ≤ 0)]

/-- C8 (amended): `randomNormal`'s clamp is `Math.max(0, ·)`: the result
is never negative, it passes positive values through unchanged, and it
is exactly zero — not a positive floor — whenever the raw Box-Muller
value is non-positive. -/
theorem randomNormal_clamped_at_zero (mean stdDev z : ℚ) :
    0 ≤ randomNormal mean stdDev z ∧
    (0 ≤ mean + z * stdDev → randomNormal mean stdDev z = mean + z * stdDev) ∧
    (mean + z * stdDev ≤ 0 → randomNormal mean stdDev z = 0) :=
  ⟨le_max_left 0 _, fun h => max_eq_right h, fun h => max_eq_left h⟩

/-- C9 counterexample: an all-zero configuration — zero capacities, zero
mean durations, zero arrival interval — is accepted by both
constructors: the continuous engine builds its nine rooms with the
zero capacities stored as given, and the batch engine builds a
zero-unit doctor resource; no error of any kind is raised. -/
theorem construction_accepts_degenerate :
    (initRooms ⟨0, 0, 0, 0, 0, 0, 0, 0, 0, 0, 0, 0, 0⟩).map Room.capacity =
      [999, 0, 999, 0, 0, 999, 0, 999, 0] ∧
    (clinicInit ⟨0, 0, 0, 0, 0, 0, 0, 0, 0, 0, 0, 0, 0⟩).stdDoctor.availableAt = [] := by
  exact ⟨rfl, rfl⟩

/-- C9 (amended): neither constructor validates its configuration.  For
every configuration — including non-positive capacities, means and
arrival intervals — construction succeeds and stores the fields
directly: the room capacities are exactly the configured ones (queues
get 999), all stations start idle, and each batch resource gets exactly
`capacity` zero-initialised units.  No `InvalidConfiguration` rejection
exists in either constructor. -/
theorem construction_no_validation (c : SimulationConfig) :
    (initRooms c).map Room.capacity =
      [999, c.numStdReceptionists, 999, c.numStdDoctors, c.numKiosks, 999,
        c.numNurses, 999, c.numAiDoctors] ∧
    (initRooms c).map Room.staffBusy = [0, 0, 0, 0, 0, 0, 0, 0, 0] ∧
    (clinicInit c).stdReception.availableAt.length = c.numStdReceptionists ∧
    (clinicInit c).stdDoctor.availableAt.length = c.numStdDoctors ∧
    (clinicInit c).aiKiosks.availableAt.length = c.numKiosks ∧
    (clinicInit c).aiNurses.availableAt.length = c.numNurses ∧
    (clinicInit c).aiDoctor.availableAt.length = c.numAiDoctors := by
  refine ⟨rfl, rfl, ?_, ?_, ?_, ?_, ?_⟩ <;>
    simp [clinicInit, Resource.mk0]

/-- C10: one `update(dt)` appends at most one history snapshot however
large `dt` is; it appends exactly one — built by `captureHistory` at
the new time — precisely when the new time is at least 5 minutes past
the last capture, and then moves the capture marker to the new time;
otherwise history and marker are untouched (missed intermediate
5-minute points are never backfilled). -/
theorem history_capture_per_update (time dt lastCapture : ℚ)
    (hist : List HistoryPoint) (st : Stats) :
    (updateCapture time dt lastCapture hist st).1.length ≤ hist.length + 1 ∧
    (updateCapture time dt lastCapture hist st).1.length =
      hist.length + (if 5 ≤ time + dt - lastCapture then 1 else 0) ∧
    (if 5 ≤ time + dt - lastCapture
      then updateCapture time dt lastCapture hist st =
        (hist ++ [captureHistory (time + dt) st], time + dt)
      else updateCapture time dt lastCapture hist st = (hist, lastCapture)) := by
  by_cases h : 5 ≤ time + dt - lastCapture
  · simp [updateCapture, h]
  · simp [updateCapture, h]
